import Mathlib

/-
Verification development for the agent-memory repository.

The development shallowly embeds the algorithmic core of the code base:
the vector store (store, cosine similarity, search, recall with filters),
the fallback embedding, the chunking pipeline with ingestion, and the
skill manager (execution, success rate, relevance, recommendation).

Modelling conventions:
- JavaScript strings are modelled as Lean String or List Char.
- JavaScript floating point numbers are modelled as real numbers where
  square roots occur (vector arithmetic) and as rationals where all
  arithmetic stays rational (skill scoring).  Fractional literals such
  as 0.3 are modelled by the exact rationals they denote.
- The JavaScript Map is modelled as an association list in insertion
  order, with set semantics that replace in place on an existing key.
- Asynchronous functions that can throw are modelled with Except String.
- Dates are modelled as natural number timestamps supplied by the caller,
  and the random id generator is modelled as an id supply function.
-/

/- Model of the ASCII fragment of String.prototype.toLowerCase: code
points 65..90 are shifted by 32, all other characters are unchanged. -/
def jsToLower (c : Char) : Char :=
  if 65 ≤ c.toNat ∧ c.toNat ≤ 90 then Char.ofNat (c.toNat + 32) else c

def lowerChars (s : String) : List Char := s.data.map jsToLower

/- Model of String.prototype.split with the regular expression of one or
more whitespace characters.  The Boolean argument records whether the
scanner is inside a separator run.  As in JavaScript, a separator at the
start or the end of the string contributes an empty token, and the empty
string yields the single empty token. -/
def goWs : List Char → List Char → Bool → List (List Char)
  | [], acc, inSep => if inSep then [acc.reverse, []] else [acc.reverse]
  | a :: rest, acc, inSep =>
    if a.isWhitespace then goWs rest acc true
    else if inSep then acc.reverse :: goWs rest [a] false
    else goWs rest (a :: acc) false

def jsSplitWs (s : List Char) : List (List Char) := goWs s [] false

/- Model of String.prototype.split with the regular expression of two or
more newline characters, used by the chunker.  The state argument is 0
normally, 1 after a single pending newline, and 2 inside a confirmed
separator run of two or more newlines. -/
def goParas : List Char → List Char → ℕ → List (List Char)
  | [], acc, st =>
    if st = 1 then [('\n' :: acc).reverse]
    else if st = 2 then [acc.reverse, []]
    else [acc.reverse]
  | c :: rest, acc, st =>
    if c = '\n' then
      if st = 0 then goParas rest acc 1 else goParas rest acc 2
    else
      if st = 0 then goParas rest (c :: acc) 0
      else if st = 1 then goParas rest (c :: '\n' :: acc) 0
      else acc.reverse :: goParas rest [c] 0

def splitParas (text : List Char) : List (List Char) := goParas text [] 0

/- Model of String.prototype.includes on character lists. -/
def containsSub (hay needle : List Char) : Bool :=
  (List.range (hay.length + 1)).any (fun i => needle.isPrefixOf (hay.drop i))

/- Data model, from src/types.ts.  The optional embedding duplicate held
on the record itself is elided: the store below tracks the embedding of
every entry separately, and no operation reads the copy on the entry.
The context map of a metadata record is flattened into the three fields
the ingestion pipeline writes into it. -/
structure MemoryMetadata where
  type : String
  source : Option String
  tags : Option (List String)
  chunkIndex : Option ℕ
  totalChunks : Option ℕ
  originalFormat : Option String
deriving DecidableEq

structure MemoryEntry where
  id : String
  content : String
  metadata : MemoryMetadata
  timestamp : ℕ
deriving DecidableEq

structure RecallFilters where
  type : Option String
  tags : Option (List String)
  source : Option String
deriving DecidableEq

structure SkillContext where
  query : String
  memories : List MemoryEntry
deriving DecidableEq

structure SkillResult where
  success : Bool
  output : Option String
  error : Option String
deriving DecidableEq

structure Skill where
  id : String
  name : String
  description : String
  execute : SkillContext → Except String SkillResult

structure SkillExecutionHistory where
  skillId : String
  context : SkillContext
  result : SkillResult
  timestamp : ℕ

structure SkillRecommendation where
  skill : Skill
  confidence : ℚ
  reason : String
  historicalSuccessRate : ℚ

/- SkillManager.isSimilarContext, from src/skills/manager.ts.  The two
queries are lowercased, split on whitespace, and turned into sets; the
contexts are similar when the Jaccard ratio exceeds 0.3.  JavaScript Set
objects are modelled by deduplicated lists. -/
def wordSet (q : String) : List (List Char) := (jsSplitWs (lowerChars q)).dedup

def isSimilarContext (context1 context2 : SkillContext) : Bool :=
  let words1 := wordSet context1.query
  let words2 := wordSet context2.query
  let intersection := words1.filter (fun x => words2.contains x)
  let union := (words1 ++ words2).dedup
  decide ((3 : ℚ) / 10 < (intersection.length : ℚ) / (union.length : ℚ))

/- Claim-side reformulation of the same quantity: word-level Jaccard
similarity of the two queries as a ratio of finite set cardinalities. -/
def specJaccard (q1 q2 : String) : ℚ :=
  let s1 : Finset (List Char) := (jsSplitWs (lowerChars q1)).toFinset
  let s2 : Finset (List Char) := (jsSplitWs (lowerChars q2)).toFinset
  ((s1 ∩ s2).card : ℚ) / ((s1 ∪ s2).card : ℚ)

/- Claim-side description of the history records that feed the success
rate: records for exactly this skill id whose stored query has Jaccard
similarity strictly above 0.3 with the current query. -/
def specMatching (history : List SkillExecutionHistory) (skillId : String)
    (context : SkillContext) : List SkillExecutionHistory :=
  history.filter (fun h =>
    decide (h.skillId = skillId ∧
      (3 : ℚ) / 10 < specJaccard h.context.query context.query))

/- SkillManager.calculateSuccessRate, from src/skills/manager.ts. -/
def calculateSuccessRate (history : List SkillExecutionHistory)
    (skillId : String) (context : SkillContext) : ℚ :=
  let relevantHistory := history.filter
    (fun h => h.skillId == skillId && isSimilarContext h.context context)
  if relevantHistory.length = 0 then 1 / 2
  else ((relevantHistory.filter (fun h => h.result.success)).length : ℚ) /
    (relevantHistory.length : ℚ)

/- The keywords of a query: its whitespace-separated lowercased words of
length greater than three, as scanned by calculateRelevance. -/
def queryKeywords (q : String) : List (List Char) :=
  (jsSplitWs (lowerChars q)).filter (fun w => 3 < w.length)

/- SkillManager.calculateRelevance, from src/skills/manager.ts: 0.3 per
keyword contained in the skill name, 0.2 per keyword contained in the
skill description, capped at 1. -/
def calculateRelevance (skill : Skill) (context : SkillContext) : ℚ :=
  let skillName := lowerChars skill.name
  let skillDesc := lowerChars skill.description
  let relevance := (queryKeywords context.query).foldl
    (fun relevance keyword =>
      relevance + (if containsSub skillName keyword then 3 / 10 else 0)
        + (if containsSub skillDesc keyword then 2 / 10 else 0)) 0
  min relevance 1

/- Claim-side reformulation of the relevance score as a capped sum over
the keyword list. -/
def specRelevance (skill : Skill) (context : SkillContext) : ℚ :=
  min 1 (((queryKeywords context.query).map
    (fun keyword =>
      (if containsSub (lowerChars skill.name) keyword then (3 : ℚ) / 10 else 0)
        + (if containsSub (lowerChars skill.description) keyword then 2 / 10 else 0))).sum)

/- SkillManager.generateRecommendationReason.  The percentage text of
the success rate is rendered from the exact rational. -/
def generateRecommendationReason (_skill : Skill)
    (successRate relevanceScore : ℚ) : String :=
  let reasons :=
    (if 7 / 10 < successRate then
      ["high success rate (" ++ toString (round (successRate * 100)) ++ "%)"]
     else []) ++
    (if 1 / 2 < relevanceScore then ["strong relevance to query"] else [])
  if reasons.isEmpty then "potential match" else String.intercalate ", " reasons

/- SkillManager.recommendSkills: one recommendation per catalog entry,
sorted by confidence descending, first limit results.  The catalog is
the association list of registered skills keyed by id. -/
def recommendSkills (skills : List (String × Skill))
    (history : List SkillExecutionHistory) (context : SkillContext)
    (limit : ℕ) : List SkillRecommendation :=
  let recommendations := skills.map (fun p =>
    let successRate := calculateSuccessRate history p.1 context
    let relevanceScore := calculateRelevance p.2 context
    { skill := p.2
      confidence := (successRate + relevanceScore) / 2
      reason := generateRecommendationReason p.2 successRate relevanceScore
      historicalSuccessRate := successRate })
  (recommendations.insertionSort
    (fun a b => b.confidence ≤ a.confidence)).take limit

/- Map.get on the skill catalog. -/
def findSkill (skills : List (String × Skill)) (skillId : String) : Option Skill :=
  match skills.find? (fun p => p.1 == skillId) with
  | some p => some p.2
  | none => none

/- SkillManager.executeSkill, from src/skills/manager.ts.  A missing
skill id is a hard error raised before the history is touched; a throw
from the skill itself is converted into a failed result; one history
record is appended in every executed case.  The returned pair carries
the call outcome and the new history. -/
def executeSkill (skills : List (String × Skill))
    (history : List SkillExecutionHistory) (skillId : String)
    (context : SkillContext) (now : ℕ) :
    Except String SkillResult × List SkillExecutionHistory :=
  match findSkill skills skillId with
  | none => (Except.error ("Skill not found: " ++ skillId), history)
  | some skill =>
    let result := match skill.execute context with
      | Except.ok r => r
      | Except.error msg =>
        { success := false, output := none, error := some msg }
    let historyEntry : SkillExecutionHistory :=
      { skillId := skillId, context := context, result := result,
        timestamp := now }
    (Except.ok result, history ++ [historyEntry])

/- One step of the greedy paragraph accumulator of AgentMemory.chunkText.
The state is the pair of emitted chunks and the running chunk. -/
def chunkStep (maxChunkSize : ℕ) (st : List (List Char) × List Char)
    (paragraph : List Char) : List (List Char) × List Char :=
  if st.2.length + paragraph.length ≤ maxChunkSize then
    (st.1, st.2 ++ (if st.2 = [] then [] else ['\n', '\n']) ++ paragraph)
  else if st.2 = [] then (st.1, paragraph)
  else (st.1 ++ [st.2], paragraph)

/- The trailing push of the nonempty running chunk at the end of the
paragraph loop of AgentMemory.chunkText. -/
def flushChunks (st : List (List Char) × List Char) : List (List Char) :=
  if st.2 = [] then st.1 else st.1 ++ [st.2]

/- AgentMemory.chunkText, from src/core/memory.ts. -/
def chunkText (text : List Char) (maxChunkSize : ℕ) : List (List Char) :=
  let paragraphs := splitParas text
  let chunks := flushChunks (paragraphs.foldl (chunkStep maxChunkSize) ([], []))
  if chunks.length > 0 then chunks else [text]

/- VectorStore.store, from src/vector/store.ts: Map.set keyed by the
entry id, replacing in place on an existing id and appending otherwise.
Persistence rewrites the whole collection and is not modelled. -/
def mapSet (st : List (MemoryEntry × List ℝ)) (entry : MemoryEntry)
    (embedding : List ℝ) : List (MemoryEntry × List ℝ) :=
  match st with
  | [] => [(entry, embedding)]
  | p :: rest =>
    if p.1.id = entry.id then (entry, embedding) :: rest
    else p :: mapSet rest entry embedding

/- The list of ids AgentMemory.ingest generates: one fresh id per chunk,
in chunk order. -/
def ingestIds (content : String) (chunkSize : ℕ) (idSupply : ℕ → String) :
    List String :=
  (List.range (chunkText content.data chunkSize).length).map idSupply

/- AgentMemory.ingest, from src/core/memory.ts, after the external text
extraction step: chunk the converted content, build one entry per chunk,
store each entry, and return the comma-joined id string.  The embedding
collaborator and the id generator are passed as functions. -/
def ingest (st : List (MemoryEntry × List ℝ)) (content : String)
    (origFormat : String) (src : String) (tags : List String)
    (chunkSize : ℕ) (genEmb : Bool) (embedF : List Char → List ℝ)
    (idSupply : ℕ → String) (now : ℕ) :
    List (MemoryEntry × List ℝ) × String :=
  let chunks := chunkText content.data chunkSize
  let res := chunks.enum.foldl
    (fun (acc : List (MemoryEntry × List ℝ) × List String) ic =>
      let memoryId := idSupply ic.1
      let embedding := if genEmb then embedF ic.2 else []
      let entry : MemoryEntry :=
        { id := memoryId
          content := String.mk ic.2
          metadata :=
            { type := "document", source := some src, tags := some tags,
              chunkIndex := some ic.1, totalChunks := some chunks.length,
              originalFormat := some origFormat }
          timestamp := now }
      (mapSet acc.1 entry embedding, acc.2 ++ [memoryId]))
    (st, [])
  (res.1, String.intercalate "," res.2)

noncomputable section VectorModel
open Classical

/- Sum of squares of a list of reals, as accumulated by the loops of
cosineSimilarity and of the fallback embedding normalizer. -/
def sumSq (l : List ℝ) : ℝ := l.foldl (fun s v => s + v * v) 0

/- Dot product loop of cosineSimilarity. -/
def dotp (a b : List ℝ) : ℝ :=
  (List.zipWith (fun x y => x * y) a b).foldl (fun s v => s + v) 0

/- VectorStore.cosineSimilarity, from src/vector/store.ts.  A length
mismatch is a thrown error; a zero norm on either side yields 0. -/
def cosineSimilarity (a b : List ℝ) : Except String ℝ :=
  if a.length ≠ b.length then Except.error "Vectors must have the same length"
  else
    let dotProduct := dotp a b
    let normA := Real.sqrt (sumSq a)
    let normB := Real.sqrt (sumSq b)
    if normA = 0 ∨ normB = 0 then Except.ok 0
    else Except.ok (dotProduct / (normA * normB))

structure MemoryRecallResult where
  entry : MemoryEntry
  similarity : ℝ

/- Sort order used by VectorStore.search: similarity descending. -/
def bySimDesc (a b : MemoryRecallResult) : Prop := b.similarity ≤ a.similarity

instance : IsTotal MemoryRecallResult bySimDesc :=
  ⟨fun a b => le_total b.similarity a.similarity⟩

instance : IsTrans MemoryRecallResult bySimDesc :=
  ⟨fun _ _ _ hab hbc => le_trans hbc hab⟩

instance : DecidableRel bySimDesc :=
  fun a b => Classical.propDecidable (bySimDesc a b)

/- The candidate-gathering loop of VectorStore.search: every stored
entry is compared with the query, a thrown similarity error aborts the
whole call, and candidates at or above the threshold are collected in
store iteration order. -/
def searchGather : List (MemoryEntry × List ℝ) → List ℝ → ℝ →
    Except String (List MemoryRecallResult)
  | [], _, _ => Except.ok []
  | p :: rest, queryEmbedding, threshold =>
    match cosineSimilarity queryEmbedding p.2 with
    | Except.error e => Except.error e
    | Except.ok similarity =>
      match searchGather rest queryEmbedding threshold with
      | Except.error e => Except.error e
      | Except.ok tail =>
        if threshold ≤ similarity then
          Except.ok ({ entry := p.1, similarity := similarity } :: tail)
        else Except.ok tail

/- VectorStore.search, from src/vector/store.ts: gather candidates, sort
by similarity descending (stably, as Array.prototype.sort), and keep at
most limit results. -/
def search (st : List (MemoryEntry × List ℝ)) (queryEmbedding : List ℝ)
    (limit : ℕ) (threshold : ℝ) : Except String (List MemoryRecallResult) :=
  match searchGather st queryEmbedding threshold with
  | Except.error e => Except.error e
  | Except.ok results =>
    Except.ok ((results.insertionSort bySimDesc).take limit)

/- The per-entry predicate of AgentMemory.applyFilters. -/
def passesFilter (filters : RecallFilters) (entry : MemoryEntry) : Bool :=
  (match filters.type with
   | none => true
   | some t => entry.metadata.type == t) &&
  (match filters.source with
   | none => true
   | some s => entry.metadata.source == some s) &&
  (match filters.tags with
   | none => true
   | some ts =>
     if ts.isEmpty then true
     else ts.any (fun tag => (entry.metadata.tags.getD []).contains tag))

/- AgentMemory.applyFilters, from src/core/memory.ts. -/
def applyFilters (results : List MemoryRecallResult)
    (filters : RecallFilters) : List MemoryRecallResult :=
  results.filter (fun r => passesFilter filters r.entry)

/- AgentMemory.recall, from src/core/memory.ts, after the query has been
embedded: search the vector store with the limit and threshold, then
apply the metadata filters to the already truncated result list.  Named
recallOp here because recall is a reserved command name in this Lean
environment. -/
def recallOp (st : List (MemoryEntry × List ℝ)) (queryEmbedding : List ℝ)
    (limit : ℕ) (threshold : ℝ) (filters : Option RecallFilters) :
    Except String (List MemoryRecallResult) :=
  match search st queryEmbedding limit threshold with
  | Except.error e => Except.error e
  | Except.ok results =>
    Except.ok (match filters with
      | some f => applyFilters results f
      | none => results)

/- Bucket index of one character contribution in the fallback embedding:
character code plus 17 times the character position plus 31 times the
word position, modulo the dimension 384. -/
def hashIndex (i j : ℕ) (c : Char) : ℕ := (c.toNat + j * 17 + i * 31) % 384

/- Add x to the bucket at idx, as the += on the embedding array. -/
def addAt (v : List ℝ) (idx : ℕ) (x : ℝ) : List ℝ :=
  v.set idx (v.getD idx 0 + x)

/- Inner loop of the fallback embedding: one word (with its index) adds
one weighted contribution per character. -/
def foldChars (i : ℕ) (w : ℝ) (jcs : List (ℕ × Char)) (acc : List ℝ) :
    List ℝ :=
  jcs.foldl (fun a jc => addAt a (hashIndex i jc.1 jc.2) w) acc

/- Outer loop of the fallback embedding over the indexed word list. -/
def foldWords (w : ℝ) (iws : List (ℕ × List Char)) (acc : List ℝ) :
    List ℝ :=
  iws.foldl (fun a iw => foldChars iw.1 w iw.2.enum a) acc

/- The unnormalized bucket vector of the fallback embedding: start from
384 zero buckets and add 1 / sqrt (word count) per character. -/
def fallbackRaw (words : List (List Char)) : List ℝ :=
  foldWords (1 / Real.sqrt (words.length : ℝ)) words.enum
    (List.replicate 384 0)

/- EmbeddingService.simpleFallbackEmbedding, from src/vector/embeddings.ts:
lowercase, split on whitespace, accumulate hashed character contributions
into 384 buckets, then divide by the Euclidean norm when it is positive. -/
def simpleFallbackEmbedding (text : String) : List ℝ :=
  let words := jsSplitWs (lowerChars text)
  let embedding := fallbackRaw words
  let norm := Real.sqrt (sumSq embedding)
  if 0 < norm then embedding.map (fun v => v / norm) else embedding

/- Concrete values used by witnesses and counterexamples below. -/

def mkEntry (id ty : String) : MemoryEntry :=
  { id := id
    content := ""
    metadata :=
      { type := ty
        source := none
        tags := none
        chunkIndex := none
        totalChunks := none
        originalFormat := none }
    timestamp := 0 }

def c10e1 : MemoryEntry := mkEntry "r1" "conversation"

def c10e2 : MemoryEntry := mkEntry "r2" "document"

def c10e3 : MemoryEntry := mkEntry "r3" "document"

def c10store : List (MemoryEntry × List ℝ) :=
  [(c10e1, [1]), (c10e2, [1]), (c10e3, [1])]

def c10filters : RecallFilters :=
  { type := some "document", tags := none, source := none }

end VectorModel

def c6skill : Skill :=
  { id := "s1", name := "hello helper", description := "",
    execute := fun _ => Except.ok { success := true, output := none, error := none } }

def c6ctx : SkillContext := { query := "hello", memories := [] }

def c6rec : SkillRecommendation :=
  { skill := c6skill
    confidence := (calculateSuccessRate [] "s1" c6ctx + calculateRelevance c6skill c6ctx) / 2
    reason := generateRecommendationReason c6skill (calculateSuccessRate [] "s1" c6ctx)
      (calculateRelevance c6skill c6ctx)
    historicalSuccessRate := calculateSuccessRate [] "s1" c6ctx }

def c7skill : Skill :=
  { id := "boom", name := "Boom", description := "always fails",
    execute := fun _ => Except.error "kaboom" }

def c7ctx : SkillContext := { query := "please explode", memories := [] }

/- General list helper lemmas. -/

theorem getD_set_of_lt {α : Type} (v : List α) (d : α) (i j : ℕ) (x : α)
    (h : i < v.length) :
    (v.set i x).getD j d = if j = i then x else v.getD j d := by
  rcases eq_or_ne j i with rfl | hne
  · simp [List.getD, List.getElem?_set, h]
  · simp [List.getD, List.getElem?_set, hne, Ne.symm hne]

theorem getD_replicate_zero (n j : ℕ) :
    (List.replicate n (0 : ℝ)).getD j 0 = 0 := by
  rcases lt_or_le j n with h | h
  · rw [List.getD_eq_getElem _ _ (by simpa using h)]
    simp
  · rw [List.getD_eq_default]
    simp [h]

theorem mem_enumFrom_of_mem {α : Type} :
    ∀ (l : List α) (n : ℕ) (x : α), x ∈ l → ∃ i, (i, x) ∈ l.enumFrom n := by
  intro l
  induction l with
  | nil => intro n x hx; cases hx
  | cons a t ih =>
    intro n x hx
    rcases List.mem_cons.1 hx with rfl | hx2
    · exact ⟨n, by simp [List.enumFrom]⟩
    · obtain ⟨i, hi⟩ := ih (n + 1) x hx2
      exact ⟨i, by simp [List.enumFrom, hi]⟩

theorem mem_enum_of_mem {α : Type} (l : List α) (x : α) (h : x ∈ l) :
    ∃ i, (i, x) ∈ l.enum := mem_enumFrom_of_mem l 0 x h

theorem toFinset_dedup {α : Type} [DecidableEq α] (l : List α) :
    l.dedup.toFinset = l.toFinset := by
  ext x
  simp [List.mem_dedup]

theorem foldl_add_shift {α : Type} (f : α → ℚ) :
    ∀ (l : List α) (a : ℚ), l.foldl (fun r x => r + f x) a = a + (l.map f).sum := by
  intro l
  induction l with
  | nil => intro a; simp
  | cons x t ih =>
    intro a
    rw [List.foldl_cons, ih, List.map_cons, List.sum_cons]
    ring

theorem foldl_pair_snd {σ τ : Type} (F : σ × List String → τ → σ × List String)
    (idf : τ → String) (hF : ∀ acc x, (F acc x).2 = acc.2 ++ [idf x]) :
    ∀ (l : List τ) (acc : σ × List String),
      (l.foldl F acc).2 = acc.2 ++ l.map idf := by
  intro l
  induction l with
  | nil => intro acc; simp
  | cons x t ih =>
    intro acc
    rw [List.foldl_cons, ih, hF]
    simp

/- Lemmas about the whitespace splitter. -/

theorem goWs_ne_nil : ∀ (s acc : List Char) (inSep : Bool), goWs s acc inSep ≠ [] := by
  intro s
  induction s with
  | nil => intro acc inSep; cases inSep <;> simp [goWs]
  | cons a rest ih =>
    intro acc inSep
    by_cases hws : a.isWhitespace
    · simpa [goWs, hws] using ih acc true
    · cases inSep with
      | true => simp [goWs, hws]
      | false => simpa [goWs, hws] using ih (a :: acc) false

theorem goWs_mem : ∀ (s acc : List Char) (inSep : Bool) (c : Char),
    (c ∈ s ∨ c ∈ acc) → c.isWhitespace = false →
    ∃ wd ∈ goWs s acc inSep, c ∈ wd := by
  intro s
  induction s with
  | nil =>
    intro acc inSep c hc hcw
    rcases hc with hc | hc
    · cases hc
    · cases inSep with
      | true => exact ⟨acc.reverse, by simp [goWs], List.mem_reverse.2 hc⟩
      | false => exact ⟨acc.reverse, by simp [goWs], List.mem_reverse.2 hc⟩
  | cons a rest ih =>
    intro acc inSep c hc hcw
    by_cases hws : a.isWhitespace
    · have hc2 : c ∈ rest ∨ c ∈ acc := by
        rcases hc with hc | hc
        · rcases List.mem_cons.1 hc with rfl | hc3
          · rw [hws] at hcw; cases hcw
          · exact Or.inl hc3
        · exact Or.inr hc
      simpa [goWs, hws] using ih acc true c hc2 hcw
    · cases inSep with
      | true =>
        rcases hc with hc | hc
        · rcases List.mem_cons.1 hc with rfl | hc3
          · obtain ⟨wd, hwd, hcwd⟩ := ih [c] false c (Or.inr (by simp)) hcw
            exact ⟨wd, by simp [goWs, hws]; exact Or.inr hwd, hcwd⟩
          · obtain ⟨wd, hwd, hcwd⟩ := ih [a] false c (Or.inl hc3) hcw
            exact ⟨wd, by simp [goWs, hws]; exact Or.inr hwd, hcwd⟩
        · refine ⟨acc.reverse, by simp [goWs, hws], List.mem_reverse.2 hc⟩
      | false =>
        have hc2 : c ∈ rest ∨ c ∈ a :: acc := by
          rcases hc with hc | hc
          · rcases List.mem_cons.1 hc with rfl | hc3
            · exact Or.inr (by simp)
            · exact Or.inl hc3
          · exact Or.inr (List.mem_cons_of_mem _ hc)
        simpa [goWs, hws] using ih (a :: acc) false c hc2 hcw

theorem jsToLower_not_ws (c : Char) (hc : c.isWhitespace = false) :
    (jsToLower c).isWhitespace = false := by
  unfold jsToLower
  split_ifs with h
  · obtain ⟨h1, h2⟩ := h
    set n := c.toNat with hn
    interval_cases n <;> decide
  · exact hc

/- Lemmas about sums of squares. -/

theorem sumSq_foldl (l : List ℝ) : ∀ a : ℝ,
    l.foldl (fun s v => s + v * v) a = a + sumSq l := by
  induction l with
  | nil => intro a; simp [sumSq]
  | cons x t ih =>
    intro a
    simp only [List.foldl_cons]
    rw [ih]
    rw [show sumSq (x :: t) =
      List.foldl (fun s v => s + v * v) (0 + x * x) t from rfl, ih]
    ring

theorem sumSq_cons (x : ℝ) (t : List ℝ) : sumSq (x :: t) = x * x + sumSq t := by
  rw [show sumSq (x :: t) =
    List.foldl (fun s v => s + v * v) (0 + x * x) t from rfl, sumSq_foldl]
  ring

theorem sumSq_nonneg (l : List ℝ) : 0 ≤ sumSq l := by
  induction l with
  | nil => simp [sumSq]
  | cons x t ih =>
    rw [sumSq_cons]
    have := mul_self_nonneg x
    linarith

theorem sumSq_eq_zero_of_all_zero (l : List ℝ) (h : ∀ x ∈ l, x = 0) :
    sumSq l = 0 := by
  induction l with
  | nil => simp [sumSq]
  | cons x t ih =>
    rw [sumSq_cons, h x (List.mem_cons_self x t),
      ih (fun y hy => h y (List.mem_cons_of_mem _ hy))]
    ring

theorem sumSq_pos_of_mem (l : List ℝ) (x : ℝ) (hx : x ∈ l) (hx0 : x ≠ 0) :
    0 < sumSq l := by
  induction l with
  | nil => cases hx
  | cons a t ih =>
    rw [sumSq_cons]
    rcases List.mem_cons.1 hx with rfl | hx2
    · have h1 : 0 < x * x := mul_self_pos.2 hx0
      have h2 := sumSq_nonneg t
      linarith
    · have h1 := mul_self_nonneg a
      have h2 := ih hx2
      linarith

theorem sumSq_map_div (l : List ℝ) (c : ℝ) (hc : c ≠ 0) :
    sumSq (l.map fun v => v / c) = sumSq l / c ^ 2 := by
  induction l with
  | nil => simp [sumSq]
  | cons x t ih =>
    rw [List.map_cons, sumSq_cons, sumSq_cons, ih]
    field_simp
    ring

theorem sumSq_replicate_zero (n : ℕ) : sumSq (List.replicate n (0 : ℝ)) = 0 := by
  induction n with
  | zero => simp [sumSq]
  | succ k ih => rw [List.replicate_succ, sumSq_cons, ih]; ring

/- Lemmas about the bucket accumulation of the fallback embedding. -/

theorem hashIndex_lt (i j : ℕ) (c : Char) : hashIndex i j c < 384 :=
  Nat.mod_lt _ (by norm_num)

theorem addAt_length (v : List ℝ) (idx : ℕ) (x : ℝ) :
    (addAt v idx x).length = v.length := by
  simp [addAt]

theorem addAt_getD (v : List ℝ) (idx : ℕ) (x : ℝ) (h : idx < v.length) (j : ℕ) :
    (addAt v idx x).getD j 0 = if j = idx then v.getD j 0 + x else v.getD j 0 := by
  unfold addAt
  rw [getD_set_of_lt v 0 idx j _ h]
  rcases eq_or_ne j idx with rfl | hne
  · simp
  · simp [hne]

theorem addAt_getD_le (v : List ℝ) (idx : ℕ) (x : ℝ) (hx : 0 ≤ x)
    (h : idx < v.length) (j : ℕ) : v.getD j 0 ≤ (addAt v idx x).getD j 0 := by
  rw [addAt_getD v idx x h j]
  split_ifs with hj
  · linarith
  · exact le_rfl

theorem foldChars_nil (i : ℕ) (w : ℝ) (acc : List ℝ) :
    foldChars i w [] acc = acc := rfl

theorem foldChars_cons (i : ℕ) (w : ℝ) (jc : ℕ × Char) (jcs : List (ℕ × Char))
    (acc : List ℝ) :
    foldChars i w (jc :: jcs) acc =
      foldChars i w jcs (addAt acc (hashIndex i jc.1 jc.2) w) := rfl

theorem foldChars_length (i : ℕ) (w : ℝ) :
    ∀ (jcs : List (ℕ × Char)) (acc : List ℝ),
      (foldChars i w jcs acc).length = acc.length := by
  intro jcs
  induction jcs with
  | nil => intro acc; rfl
  | cons jc rest ih =>
    intro acc
    rw [foldChars_cons, ih, addAt_length]

theorem foldChars_getD_le (i : ℕ) (w : ℝ) (hw : 0 ≤ w) :
    ∀ (jcs : List (ℕ × Char)) (acc : List ℝ), acc.length = 384 →
      ∀ j, acc.getD j 0 ≤ (foldChars i w jcs acc).getD j 0 := by
  intro jcs
  induction jcs with
  | nil => intro acc _ j; rw [foldChars_nil]
  | cons jc rest ih =>
    intro acc hlen j
    rw [foldChars_cons]
    refine le_trans (addAt_getD_le acc _ w hw ?_ j) (ih _ ?_ j)
    · rw [hlen]; exact hashIndex_lt i jc.1 jc.2
    · rw [addAt_length, hlen]

theorem foldWords_nil (w : ℝ) (acc : List ℝ) : foldWords w [] acc = acc := rfl

theorem foldWords_cons (w : ℝ) (iw : ℕ × List Char)
    (iws : List (ℕ × List Char)) (acc : List ℝ) :
    foldWords w (iw :: iws) acc =
      foldWords w iws (foldChars iw.1 w iw.2.enum acc) := rfl

theorem foldWords_length (w : ℝ) :
    ∀ (iws : List (ℕ × List Char)) (acc : List ℝ),
      (foldWords w iws acc).length = acc.length := by
  intro iws
  induction iws with
  | nil => intro acc; rfl
  | cons iw rest ih =>
    intro acc
    rw [foldWords_cons, ih, foldChars_length]

theorem foldWords_getD_le (w : ℝ) (hw : 0 ≤ w) :
    ∀ (iws : List (ℕ × List Char)) (acc : List ℝ), acc.length = 384 →
      ∀ j, acc.getD j 0 ≤ (foldWords w iws acc).getD j 0 := by
  intro iws
  induction iws with
  | nil => intro acc _ j; rw [foldWords_nil]
  | cons iw rest ih =>
    intro acc hlen j
    rw [foldWords_cons]
    refine le_trans (foldChars_getD_le iw.1 w hw iw.2.enum acc hlen j) (ih _ ?_ j)
    rw [foldChars_length, hlen]

theorem foldChars_pos (i : ℕ) (w : ℝ) (hw : 0 < w) (jc : ℕ × Char)
    (jcs : List (ℕ × Char)) (acc : List ℝ) (hlen : acc.length = 384)
    (hnn : ∀ j, 0 ≤ acc.getD j 0) :
    ∃ j, j < 384 ∧ 0 < (foldChars i w (jc :: jcs) acc).getD j 0 := by
  have hidx : hashIndex i jc.1 jc.2 < 384 := hashIndex_lt i jc.1 jc.2
  have hidx2 : hashIndex i jc.1 jc.2 < acc.length := by rw [hlen]; exact hidx
  have h1 : (addAt acc (hashIndex i jc.1 jc.2) w).getD (hashIndex i jc.1 jc.2) 0
      = acc.getD (hashIndex i jc.1 jc.2) 0 + w := by
    rw [addAt_getD acc _ w hidx2]
    simp
  have h2 : 0 < (addAt acc (hashIndex i jc.1 jc.2) w).getD (hashIndex i jc.1 jc.2) 0 := by
    rw [h1]
    have := hnn (hashIndex i jc.1 jc.2)
    linarith
  refine ⟨hashIndex i jc.1 jc.2, hidx, ?_⟩
  rw [foldChars_cons]
  refine lt_of_lt_of_le h2 (foldChars_getD_le i w (le_of_lt hw) jcs _ ?_ _)
  rw [addAt_length, hlen]

theorem foldWords_pos (w : ℝ) (hw : 0 < w) :
    ∀ (iws : List (ℕ × List Char)) (acc : List ℝ), acc.length = 384 →
      (∀ j, 0 ≤ acc.getD j 0) → (∃ p ∈ iws, p.2 ≠ []) →
      ∃ j, j < 384 ∧ 0 < (foldWords w iws acc).getD j 0 := by
  intro iws
  induction iws with
  | nil => intro acc _ _ hsome; simp at hsome
  | cons iw rest ih =>
    intro acc hlen hnn hsome
    rw [foldWords_cons]
    by_cases hw2 : iw.2 = []
    · have henum : iw.2.enum = [] := by rw [hw2]; rfl
      rw [henum, foldChars_nil]
      obtain ⟨p, hp, hpne⟩ := hsome
      rcases List.mem_cons.1 hp with rfl | hp2
      · exact absurd hw2 hpne
      · exact ih acc hlen hnn ⟨p, hp2, hpne⟩
    · obtain ⟨c, cs, hcs⟩ := List.exists_cons_of_ne_nil hw2
      have henum : iw.2.enum = (0, c) :: cs.enumFrom 1 := by
        rw [hcs]; exact List.enum_cons
      obtain ⟨j, hj, hpos⟩ :=
        foldChars_pos iw.1 w hw (0, c) (cs.enumFrom 1) acc hlen hnn
      refine ⟨j, hj, lt_of_lt_of_le ?_ (foldWords_getD_le w (le_of_lt hw) rest _ ?_ j)⟩
      · rw [henum]; exact hpos
      · rw [foldChars_length, hlen]

theorem fallbackRaw_length (words : List (List Char)) :
    (fallbackRaw words).length = 384 := by
  unfold fallbackRaw
  rw [foldWords_length, List.length_replicate]

theorem fallbackRaw_pos (words : List (List Char)) (hne : words ≠ [])
    (hsome : ∃ wd ∈ words, wd ≠ []) :
    ∃ j, j < 384 ∧ 0 < (fallbackRaw words).getD j 0 := by
  have hlen : (0 : ℝ) < (words.length : ℝ) := by
    exact_mod_cast List.length_pos.2 hne
  have hw : 0 < 1 / Real.sqrt (words.length : ℝ) :=
    one_div_pos.2 (Real.sqrt_pos.2 hlen)
  obtain ⟨wd, hwd, hwdne⟩ := hsome
  obtain ⟨i, hi⟩ := mem_enum_of_mem words wd hwd
  exact foldWords_pos _ hw words.enum (List.replicate 384 0)
    (List.length_replicate 384 0)
    (fun j => by rw [getD_replicate_zero]) ⟨(i, wd), hi, hwdne⟩

/- The two structural facts about the fallback embedding. -/

theorem simpleFallbackEmbedding_length (text : String) :
    (simpleFallbackEmbedding text).length = 384 := by
  simp only [simpleFallbackEmbedding]
  split_ifs
  · rw [List.length_map, fallbackRaw_length]
  · rw [fallbackRaw_length]

theorem simpleFallbackEmbedding_norm (text : String)
    (h : ∃ c ∈ text.data, c.isWhitespace = false) :
    Real.sqrt (sumSq (simpleFallbackEmbedding text)) = 1 := by
  obtain ⟨c, hc, hcw⟩ := h
  have hc2 : jsToLower c ∈ lowerChars text := List.mem_map_of_mem jsToLower hc
  have hcw2 : (jsToLower c).isWhitespace = false := jsToLower_not_ws c hcw
  obtain ⟨wd, hwd, hcwd⟩ :=
    goWs_mem (lowerChars text) [] false (jsToLower c) (Or.inl hc2) hcw2
  have hsome : ∃ wd ∈ jsSplitWs (lowerChars text), wd ≠ [] :=
    ⟨wd, hwd, List.ne_nil_of_mem hcwd⟩
  have hne : jsSplitWs (lowerChars text) ≠ [] := goWs_ne_nil _ [] false
  obtain ⟨j, hj, hpos⟩ := fallbackRaw_pos _ hne hsome
  have hjlen : j < (fallbackRaw (jsSplitWs (lowerChars text))).length := by
    rw [fallbackRaw_length]; exact hj
  have hmem : (fallbackRaw (jsSplitWs (lowerChars text))).getD j 0 ∈
      fallbackRaw (jsSplitWs (lowerChars text)) := by
    rw [List.getD_eq_getElem _ _ hjlen]
    exact List.getElem_mem hjlen
  have hS : 0 < sumSq (fallbackRaw (jsSplitWs (lowerChars text))) :=
    sumSq_pos_of_mem _ _ hmem (ne_of_gt hpos)
  have hnorm : 0 < Real.sqrt (sumSq (fallbackRaw (jsSplitWs (lowerChars text)))) :=
    Real.sqrt_pos.2 hS
  simp only [simpleFallbackEmbedding]
  rw [if_pos hnorm]
  rw [sumSq_map_div _ _ (ne_of_gt hnorm)]
  rw [Real.sq_sqrt (le_of_lt hS)]
  rw [div_self (ne_of_gt hS), Real.sqrt_one]

/-- C3: the fallback embedding is a pure function of the text (the same
text always yields the identical vector) and its output always has
length 384.  The norm clause of the claim is corrected: the output has
Euclidean norm 1 whenever the text contains at least one non-whitespace
character; an all-zero vector occurs exactly for inputs without any
non-whitespace character, which includes the empty text but also
whitespace-only texts such as a single space. -/
theorem fallback_embedding_spec (text : String) :
    (simpleFallbackEmbedding text).length = 384 ∧
    (∀ other : String, other = text →
      simpleFallbackEmbedding other = simpleFallbackEmbedding text) ∧
    ((∃ c ∈ text.data, c.isWhitespace = false) →
      Real.sqrt (sumSq (simpleFallbackEmbedding text)) = 1) :=
  ⟨simpleFallbackEmbedding_length text, fun _ hother => by rw [hother],
    simpleFallbackEmbedding_norm text⟩

/-- Witness for C3 at the text "abc": it contains a non-whitespace
character and its fallback embedding has norm 1. -/
theorem fallback_embedding_spec_witness :
    ('a' ∈ "abc".data ∧ 'a'.isWhitespace = false) ∧
    Real.sqrt (sumSq (simpleFallbackEmbedding "abc")) = 1 :=
  ⟨⟨by decide, by decide⟩,
    (fallback_embedding_spec "abc").2.2 ⟨'a', by decide, by decide⟩⟩

/-- Counterexample for C3 as stated: the single-space text is not empty,
yet its fallback embedding is the all-zero vector, because splitting a
whitespace-only string yields only empty tokens and no bucket is ever
incremented.  The claim permits an all-zero output only for the empty
input. -/
theorem fallback_whitespace_counterexample :
    " " ≠ "" ∧ simpleFallbackEmbedding " " = List.replicate 384 (0 : ℝ) := by
  constructor
  · decide
  · have h1 : fallbackRaw (jsSplitWs (lowerChars " ")) = List.replicate 384 0 := rfl
    simp only [simpleFallbackEmbedding, h1, sumSq_replicate_zero, Real.sqrt_zero]
    rw [if_neg (lt_irrefl 0)]

/- Lemmas about cosine similarity and search. -/

theorem cosineSimilarity_ok_of_length {a b : List ℝ} (h : a.length = b.length) :
    ∃ s, cosineSimilarity a b = Except.ok s := by
  unfold cosineSimilarity
  rw [if_neg (by simp [h])]
  dsimp only
  split_ifs
  · exact ⟨0, rfl⟩
  · exact ⟨_, rfl⟩

theorem cosineSimilarity_error_of_length {a b : List ℝ} (h : a.length ≠ b.length) :
    cosineSimilarity a b = Except.error "Vectors must have the same length" := by
  unfold cosineSimilarity
  rw [if_pos h]

theorem cosineSimilarity_zero_left {a b : List ℝ} (h : a.length = b.length)
    (hz : ∀ x ∈ a, x = 0) : cosineSimilarity a b = Except.ok 0 := by
  unfold cosineSimilarity
  rw [if_neg (by simp [h])]
  dsimp only
  have hA : Real.sqrt (sumSq a) = 0 := by
    rw [sumSq_eq_zero_of_all_zero a hz, Real.sqrt_zero]
  rw [if_pos (Or.inl hA)]

theorem cosineSimilarity_zero_right {a b : List ℝ} (h : a.length = b.length)
    (hz : ∀ x ∈ b, x = 0) : cosineSimilarity a b = Except.ok 0 := by
  unfold cosineSimilarity
  rw [if_neg (by simp [h])]
  dsimp only
  have hB : Real.sqrt (sumSq b) = 0 := by
    rw [sumSq_eq_zero_of_all_zero b hz, Real.sqrt_zero]
  rw [if_pos (Or.inr hB)]

theorem searchGather_ok_of_dims :
    ∀ (st : List (MemoryEntry × List ℝ)) (q : List ℝ) (t : ℝ),
      (∀ p ∈ st, p.2.length = q.length) →
      ∃ l, searchGather st q t = Except.ok l := by
  intro st
  induction st with
  | nil => intro q t _; exact ⟨[], rfl⟩
  | cons p rest ih =>
    intro q t h
    obtain ⟨s, hs⟩ :=
      cosineSimilarity_ok_of_length (h p (List.mem_cons_self p rest)).symm
    obtain ⟨l, hl⟩ := ih q t (fun p2 hp2 => h p2 (List.mem_cons_of_mem _ hp2))
    simp only [searchGather, hs, hl]
    split_ifs
    · exact ⟨_, rfl⟩
    · exact ⟨_, rfl⟩

theorem searchGather_mem :
    ∀ (st : List (MemoryEntry × List ℝ)) (q : List ℝ) (t : ℝ)
      (l : List MemoryRecallResult), searchGather st q t = Except.ok l →
      ∀ r ∈ l, t ≤ r.similarity ∧
        ∃ emb, (r.entry, emb) ∈ st ∧
          cosineSimilarity q emb = Except.ok r.similarity := by
  intro st
  induction st with
  | nil =>
    intro q t l hl r hr
    simp only [searchGather, Except.ok.injEq] at hl
    subst hl
    cases hr
  | cons p rest ih =>
    intro q t l hl r hr
    rcases hcos : cosineSimilarity q p.2 with e | s
    · simp [searchGather, hcos] at hl
    · rcases hrec : searchGather rest q t with e2 | tl
      · simp [searchGather, hcos, hrec] at hl
      · simp only [searchGather, hcos, hrec] at hl
        split_ifs at hl with hts
        · simp only [Except.ok.injEq] at hl
          subst hl
          rcases List.mem_cons.1 hr with rfl | hr2
          · exact ⟨hts, p.2, by simp, hcos⟩
          · obtain ⟨hts2, emb, hmem, hcos2⟩ := ih q t tl hrec r hr2
            exact ⟨hts2, emb, List.mem_cons_of_mem _ hmem, hcos2⟩
        · simp only [Except.ok.injEq] at hl
          subst hl
          obtain ⟨hts2, emb, hmem, hcos2⟩ := ih q t tl hrec r hr
          exact ⟨hts2, emb, List.mem_cons_of_mem _ hmem, hcos2⟩

theorem searchGather_error_of_mismatch :
    ∀ (st : List (MemoryEntry × List ℝ)) (q : List ℝ) (t : ℝ)
      (p : MemoryEntry × List ℝ), p ∈ st → p.2.length ≠ q.length →
      searchGather st q t = Except.error "Vectors must have the same length" := by
  intro st
  induction st with
  | nil => intro q t p hp; cases hp
  | cons hd rest ih =>
    intro q t p hp hlen
    rcases List.mem_cons.1 hp with rfl | hp2
    · have hc : cosineSimilarity q p.2 =
          Except.error "Vectors must have the same length" :=
        cosineSimilarity_error_of_length (fun h2 => hlen h2.symm)
      simp only [searchGather, hc]
    · by_cases hhd : hd.2.length = q.length
      · obtain ⟨s, hs⟩ := cosineSimilarity_ok_of_length hhd.symm
        have ht := ih q t p hp2 hlen
        simp only [searchGather, hs, ht]
      · have hc : cosineSimilarity q hd.2 =
            Except.error "Vectors must have the same length" :=
          cosineSimilarity_error_of_length (fun h2 => hhd h2.symm)
        simp only [searchGather, hc]

theorem search_error_of_mismatch (st : List (MemoryEntry × List ℝ))
    (q : List ℝ) (limit : ℕ) (t : ℝ) (p : MemoryEntry × List ℝ)
    (hp : p ∈ st) (hlen : p.2.length ≠ q.length) :
    search st q limit t = Except.error "Vectors must have the same length" := by
  simp only [search, searchGather_error_of_mismatch st q t p hp hlen]

/-- C1: for every store state, query vector, limit and threshold, whenever
search succeeds it returns only results whose recorded similarity is the
cosine similarity of the query with a stored embedding of that entry and
is at least the threshold, the result list is sorted by similarity in
descending order, and its length is at most the limit; and search does
succeed whenever every stored embedding has the dimension of the query. -/
theorem search_contract (st : List (MemoryEntry × List ℝ)) (q : List ℝ)
    (limit : ℕ) (t : ℝ) :
    ((∀ p ∈ st, p.2.length = q.length) →
      ∃ rs, search st q limit t = Except.ok rs) ∧
    (∀ rs, search st q limit t = Except.ok rs →
      (∀ r ∈ rs, t ≤ r.similarity ∧
        ∃ emb, (r.entry, emb) ∈ st ∧
          cosineSimilarity q emb = Except.ok r.similarity) ∧
      List.Sorted bySimDesc rs ∧ rs.length ≤ limit) := by
  constructor
  · intro hdim
    obtain ⟨l, hl⟩ := searchGather_ok_of_dims st q t hdim
    exact ⟨(l.insertionSort bySimDesc).take limit, by simp only [search, hl]⟩
  · intro rs hrs
    rcases hg : searchGather st q t with e | l
    · simp [search, hg] at hrs
    · simp only [search, hg, Except.ok.injEq] at hrs
      subst hrs
      refine ⟨?_, ?_, ?_⟩
      · intro r hr
        have hr2 : r ∈ l.insertionSort bySimDesc := List.take_subset _ _ hr
        have hr3 : r ∈ l := (List.perm_insertionSort bySimDesc l).mem_iff.1 hr2
        exact searchGather_mem st q t l hg r hr3
      · exact (List.sorted_insertionSort bySimDesc l).take
      · rw [List.length_take]
        exact min_le_left _ _

/-- Witness for C1: a one-entry store whose embedding matches the query
dimension; search succeeds on it. -/
theorem search_contract_witness :
    [(1 : ℝ), 0, 0].length = 3 ∧
    ∃ rs, search [((mkEntry "w1" "document"), [(1 : ℝ), 0, 0])]
      [(1 : ℝ), 0, 0] 5 (1 / 2) = Except.ok rs := by
  refine ⟨rfl, (search_contract _ _ 5 (1 / 2)).1 ?_⟩
  intro p hp
  rw [List.mem_singleton.1 hp]

/-- C2: cosine similarity of two same-length vectors where either side is
all-zero is the value 0 and not an error; cosine similarity of two
vectors of different lengths is a hard error with the message of the
source, and a search that reaches such a pair fails with that error
rather than skipping the pair. -/
theorem cosine_edge_spec :
    (∀ a b : List ℝ, a.length = b.length →
      ((∀ x ∈ a, x = 0) ∨ (∀ x ∈ b, x = 0)) →
      cosineSimilarity a b = Except.ok 0) ∧
    (∀ a b : List ℝ, a.length ≠ b.length →
      cosineSimilarity a b = Except.error "Vectors must have the same length") ∧
    (∀ (st : List (MemoryEntry × List ℝ)) (q : List ℝ) (limit : ℕ) (t : ℝ)
      (p : MemoryEntry × List ℝ), p ∈ st → p.2.length ≠ q.length →
      search st q limit t = Except.error "Vectors must have the same length") := by
  refine ⟨?_, ?_, ?_⟩
  · intro a b h hz
    rcases hz with hz | hz
    · exact cosineSimilarity_zero_left h hz
    · exact cosineSimilarity_zero_right h hz
  · intro a b h
    exact cosineSimilarity_error_of_length h
  · intro st q limit t p hp hlen
    exact search_error_of_mismatch st q limit t p hp hlen

/-- Witness for C2: the all-zero pair gives similarity 0, a length-1 and
a length-2 vector give the hard error, and a search over a store holding
a two-dimensional embedding fails for a one-dimensional query. -/
theorem cosine_edge_spec_witness :
    cosineSimilarity [(0 : ℝ), 0] [(0 : ℝ), 0] = Except.ok 0 ∧
    cosineSimilarity [(1 : ℝ)] [(1 : ℝ), 2] =
      Except.error "Vectors must have the same length" ∧
    search [((mkEntry "w2" "document"), [(1 : ℝ), 2])] [(1 : ℝ)] 5 0 =
      Except.error "Vectors must have the same length" := by
  refine ⟨cosine_edge_spec.1 [(0 : ℝ), 0] [(0 : ℝ), 0] rfl (Or.inl ?_),
    cosine_edge_spec.2.1 _ _ (by simp),
    cosine_edge_spec.2.2 _ _ 5 0 ((mkEntry "w2" "document"), [(1 : ℝ), 2])
      (List.mem_singleton_self _) (by simp)⟩
  intro x hx
  rcases List.mem_cons.1 hx with rfl | hx2
  · rfl
  · rw [List.mem_singleton.1 hx2]

/- Membership behavior of Map.set on the store. -/

theorem mapSet_mem_self :
    ∀ (st : List (MemoryEntry × List ℝ)) (entry : MemoryEntry)
      (embedding : List ℝ), (entry, embedding) ∈ mapSet st entry embedding := by
  intro st
  induction st with
  | nil => intro entry embedding; simp [mapSet]
  | cons p rest ih =>
    intro entry embedding
    unfold mapSet
    split_ifs
    · exact List.mem_cons_self _ _
    · exact List.mem_cons_of_mem _ (ih entry embedding)

/-- C8 counterexample: starting from the empty store, storing a
three-dimensional embedding and then a two-dimensional one succeeds
silently, leaving a reachable store whose entries have embeddings of
lengths 3 and 2.  The claim asserts that the second store call fails
explicitly, which the code does not do: VectorStore.store performs no
dimension check. -/
theorem store_mixed_dims_counterexample :
    (mapSet (mapSet [] (mkEntry "m1" "document") [(1 : ℝ), 0, 0])
        (mkEntry "m2" "document") [(1 : ℝ), 0]).map (fun p => p.2.length) =
      [3, 2] ∧ (3 : ℕ) ≠ 2 := by
  constructor
  · rfl
  · decide

/-- C8 corrected: store never rejects an embedding on dimension grounds;
it unconditionally inserts or overwrites by id, so mixed-dimension states
are reachable, and a mixed store is detected as a hard error when search
compares the query with a mismatched stored embedding, rather than
corrupting search results silently. -/
theorem store_no_dim_check (st : List (MemoryEntry × List ℝ))
    (entry : MemoryEntry) (embedding : List ℝ) :
    (entry, embedding) ∈ mapSet st entry embedding ∧
    (∀ (q : List ℝ) (limit : ℕ) (t : ℝ) (p : MemoryEntry × List ℝ),
      p ∈ mapSet st entry embedding → p.2.length ≠ q.length →
      search (mapSet st entry embedding) q limit t =
        Except.error "Vectors must have the same length") := by
  refine ⟨mapSet_mem_self st entry embedding, ?_⟩
  intro q limit t p hp hlen
  exact search_error_of_mismatch _ q limit t p hp hlen

/-- Witness for C8: after storing a two-dimensional embedding into a
store holding a three-dimensional one, the new pair is present and a
three-dimensional query makes search fail with the dimension error. -/
theorem store_no_dim_check_witness :
    ((mkEntry "m2" "document"), [(1 : ℝ), 0]) ∈
      mapSet [((mkEntry "m1" "document"), [(1 : ℝ), 0, 0])]
        (mkEntry "m2" "document") [(1 : ℝ), 0] ∧
    search (mapSet [((mkEntry "m1" "document"), [(1 : ℝ), 0, 0])]
        (mkEntry "m2" "document") [(1 : ℝ), 0]) [(1 : ℝ), 0, 0] 5 0 =
      Except.error "Vectors must have the same length" := by
  have h := store_no_dim_check [((mkEntry "m1" "document"), [(1 : ℝ), 0, 0])]
    (mkEntry "m2" "document") [(1 : ℝ), 0]
  exact ⟨h.1, h.2 [(1 : ℝ), 0, 0] 5 0 _ h.1 (by simp)⟩

/- Concrete evaluation pieces for the recall scenario. -/

theorem cos_one : cosineSimilarity [(1 : ℝ)] [(1 : ℝ)] = Except.ok 1 := by
  unfold cosineSimilarity
  rw [if_neg (by simp)]
  dsimp only
  have hnil : sumSq ([] : List ℝ) = 0 := rfl
  have hs : sumSq [(1 : ℝ)] = 1 := by rw [sumSq_cons, hnil]; norm_num
  have hd : dotp [(1 : ℝ)] [(1 : ℝ)] = 1 := by unfold dotp; norm_num
  rw [hs, hd, Real.sqrt_one]
  rw [if_neg (by norm_num)]
  norm_num

theorem c10gather : searchGather c10store [(1 : ℝ)] (1 / 2) =
    Except.ok [⟨c10e1, 1⟩, ⟨c10e2, 1⟩, ⟨c10e3, 1⟩] := by
  have h12 : ((1 : ℝ) / 2 ≤ 1) := by norm_num
  simp only [c10store, searchGather, cos_one, if_pos h12]

theorem c10sort : List.insertionSort bySimDesc
    [(⟨c10e1, 1⟩ : MemoryRecallResult), ⟨c10e2, 1⟩, ⟨c10e3, 1⟩] =
    [⟨c10e1, 1⟩, ⟨c10e2, 1⟩, ⟨c10e3, 1⟩] := by
  simp [List.insertionSort, List.orderedInsert, bySimDesc]

/-- C10: recall applies the result limit inside the vector search before
applying the metadata filters.  In the store with one conversation entry
followed by two document entries, all with the same embedding as the
query, a recall with limit 2, threshold one half and a document type
filter returns a single result, even though the two document entries
both lie above the threshold, both pass the filter, and are distinct:
the conversation entry consumed one of the two limit slots inside search
and was removed by the filter afterwards, with no backfilling. -/
theorem recall_filter_after_limit :
    recallOp c10store [(1 : ℝ)] 2 (1 / 2) (some c10filters) =
      Except.ok [⟨c10e2, 1⟩] ∧
    (c10e2, [(1 : ℝ)]) ∈ c10store ∧ (c10e3, [(1 : ℝ)]) ∈ c10store ∧
    c10e2 ≠ c10e3 ∧
    cosineSimilarity [(1 : ℝ)] [(1 : ℝ)] = Except.ok 1 ∧ ((1 : ℝ) / 2 ≤ 1) ∧
    passesFilter c10filters c10e2 = true ∧
    passesFilter c10filters c10e3 = true ∧
    (1 : ℕ) < 2 := by
  have hpf1 : passesFilter c10filters c10e1 = false := by decide
  have hpf2 : passesFilter c10filters c10e2 = true := by decide
  have hpf3 : passesFilter c10filters c10e3 = true := by decide
  have h1 : search c10store [(1 : ℝ)] 2 (1 / 2) =
      Except.ok [⟨c10e1, 1⟩, ⟨c10e2, 1⟩] := by
    simp only [search, c10gather, c10sort]
    rfl
  have h2 : applyFilters [⟨c10e1, 1⟩, ⟨c10e2, 1⟩] c10filters = [⟨c10e2, 1⟩] := by
    simp [applyFilters, List.filter_cons, hpf1, hpf2]
  refine ⟨?_, by simp [c10store], by simp [c10store], by decide,
    cos_one, by norm_num, hpf2, hpf3, by norm_num⟩
  simp only [recallOp, h1, h2]

/- Lemmas about the greedy chunker. -/

theorem mem_flushChunks_of_mem (st : List (List Char) × List Char)
    (c : List Char) (h : c ∈ st.1) : c ∈ flushChunks st := by
  unfold flushChunks
  split_ifs
  · exact h
  · exact List.mem_append_left _ h

theorem fold_preserves_mem (maxChunkSize : ℕ) :
    ∀ (ps : List (List Char)) (chunks : List (List Char)) (cur : List Char)
      (c : List Char), c ∈ chunks →
      c ∈ flushChunks (ps.foldl (chunkStep maxChunkSize) (chunks, cur)) := by
  intro ps
  induction ps with
  | nil => intro chunks cur c hc; exact mem_flushChunks_of_mem _ _ hc
  | cons p rest ih =>
    intro chunks cur c hc
    rw [List.foldl_cons]
    have hstep : c ∈ (chunkStep maxChunkSize (chunks, cur) p).1 := by
      unfold chunkStep
      dsimp only
      split_ifs
      all_goals first
        | exact hc
        | (show c ∈ chunks ++ [cur]; exact List.mem_append_left _ hc)
    exact ih _ _ c hstep

theorem fold_cur_oversize (maxChunkSize : ℕ) :
    ∀ (ps : List (List Char)) (st : List (List Char) × List Char),
      maxChunkSize < st.2.length →
      st.2 ∈ flushChunks (ps.foldl (chunkStep maxChunkSize) st) := by
  intro ps
  induction ps with
  | nil =>
    intro st h
    rw [List.foldl_nil]
    unfold flushChunks
    rw [if_neg (by intro he; rw [he] at h; simp at h)]
    exact List.mem_append_right _ (List.mem_singleton_self st.2)
  | cons p rest ih =>
    intro st h
    rw [List.foldl_cons]
    have hnofit : ¬ (st.2.length + p.length ≤ maxChunkSize) := by omega
    have hne : ¬ (st.2 = []) := by intro he; rw [he] at h; simp at h
    have hstep : chunkStep maxChunkSize st p = (st.1 ++ [st.2], p) := by
      unfold chunkStep
      rw [if_neg hnofit, if_neg hne]
    rw [hstep]
    exact fold_preserves_mem maxChunkSize rest _ p st.2
      (List.mem_append_right _ (List.mem_singleton_self st.2))

theorem oversize_whole (maxChunkSize : ℕ) :
    ∀ (ps : List (List Char)) (chunks : List (List Char)) (cur : List Char)
      (p : List Char), p ∈ ps → maxChunkSize < p.length →
      p ∈ flushChunks (ps.foldl (chunkStep maxChunkSize) (chunks, cur)) := by
  intro ps
  induction ps with
  | nil => intro chunks cur p hp; cases hp
  | cons q rest ih =>
    intro chunks cur p hp hlen
    rw [List.foldl_cons]
    rcases List.mem_cons.1 hp with rfl | hp2
    · have hnofit : ¬ ((chunks, cur).2.length + p.length ≤ maxChunkSize) := by
        dsimp only
        omega
      by_cases hcure : cur = []
      · have hstep : chunkStep maxChunkSize (chunks, cur) p = (chunks, p) := by
          unfold chunkStep
          rw [if_neg hnofit, if_pos hcure]
        rw [hstep]
        exact fold_cur_oversize maxChunkSize rest (chunks, p) hlen
      · have hstep : chunkStep maxChunkSize (chunks, cur) p =
            (chunks ++ [cur], p) := by
          unfold chunkStep
          rw [if_neg hnofit, if_neg hcure]
        rw [hstep]
        exact fold_cur_oversize maxChunkSize rest (chunks ++ [cur], p) hlen
    · exact ih _ _ p hp2 hlen

theorem fold_allempty (maxChunkSize : ℕ) :
    ∀ (ps : List (List Char)), (∀ p ∈ ps, p = []) →
      ps.foldl (chunkStep maxChunkSize) ([], []) = ([], []) := by
  intro ps
  induction ps with
  | nil => intro _; rfl
  | cons p rest ih =>
    intro h
    rw [List.foldl_cons]
    have hp : p = [] := h p (List.mem_cons_self p rest)
    have hstep : chunkStep maxChunkSize ([], []) p = ([], []) := by
      subst hp
      unfold chunkStep
      dsimp only
      rw [if_pos (by simp)]
      simp
    rw [hstep]
    exact ih (fun q hq => h q (List.mem_cons_of_mem _ hq))

theorem fold_chunk_bound (maxChunkSize : ℕ) (paras : List (List Char)) :
    ∀ (ps : List (List Char)), (∀ p ∈ ps, p ∈ paras) →
    ∀ (chunks : List (List Char)) (cur : List Char),
      (∀ c ∈ chunks, c ∈ paras ∨ c.length ≤ maxChunkSize + 2) →
      (cur = [] ∨ cur ∈ paras ∨ cur.length ≤ maxChunkSize + 2) →
      ∀ c ∈ flushChunks (ps.foldl (chunkStep maxChunkSize) (chunks, cur)),
        c ∈ paras ∨ c.length ≤ maxChunkSize + 2 := by
  intro ps
  induction ps with
  | nil =>
    intro _ chunks cur hchunks hcur c hc
    rw [List.foldl_nil] at hc
    unfold flushChunks at hc
    split_ifs at hc with hce
    · exact hchunks c hc
    · rcases List.mem_append.1 hc with h1 | h1
      · exact hchunks c h1
      · rw [List.mem_singleton.1 h1]
        rcases hcur with rfl | h2
        · exact absurd rfl hce
        · exact h2
  | cons p rest ih =>
    intro hsub chunks cur hchunks hcur
    rw [List.foldl_cons]
    have hpmem : p ∈ paras := hsub p (List.mem_cons_self p rest)
    have hsub2 : ∀ q ∈ rest, q ∈ paras :=
      fun q hq => hsub q (List.mem_cons_of_mem _ hq)
    by_cases hfit : (chunks, cur).2.length + p.length ≤ maxChunkSize
    · by_cases hcure : cur = []
      · have hstep : chunkStep maxChunkSize (chunks, cur) p = (chunks, p) := by
          unfold chunkStep
          rw [if_pos hfit]
          dsimp only
          subst hcure
          simp
        rw [hstep]
        exact ih hsub2 chunks p hchunks (Or.inr (Or.inl hpmem))
      · have hstep : chunkStep maxChunkSize (chunks, cur) p =
            (chunks, cur ++ ['\n', '\n'] ++ p) := by
          unfold chunkStep
          rw [if_pos hfit]
          dsimp only
          rw [if_neg hcure]
        rw [hstep]
        refine ih hsub2 chunks _ hchunks (Or.inr (Or.inr ?_))
        have hfit2 : cur.length + p.length ≤ maxChunkSize := hfit
        simp only [List.length_append, List.length_cons, List.length_nil]
        omega
    · by_cases hcure : cur = []
      · have hstep : chunkStep maxChunkSize (chunks, cur) p = (chunks, p) := by
          unfold chunkStep
          rw [if_neg hfit, if_pos hcure]
        rw [hstep]
        exact ih hsub2 chunks p hchunks (Or.inr (Or.inl hpmem))
      · have hstep : chunkStep maxChunkSize (chunks, cur) p =
            (chunks ++ [cur], p) := by
          unfold chunkStep
          rw [if_neg hfit, if_neg hcure]
        rw [hstep]
        refine ih hsub2 _ p (fun c hc => ?_) (Or.inr (Or.inl hpmem))
        rcases List.mem_append.1 hc with h1 | h1
        · exact hchunks c h1
        · rw [List.mem_singleton.1 h1]
          rcases hcur with rfl | h2
          · exact absurd rfl hcure
          · exact h2

/-- C4: corrected chunking contract.  Every produced chunk is either one
paragraph of the text emitted whole or has length at most the maximum
chunk size plus two, unless the degenerate fallback returned the whole
text as the only chunk; the two-character slack exists because the
greedy check does not count the blank-line separator that joins the
accumulated chunk with the next paragraph.  Every paragraph longer than
the maximum is emitted whole as its own chunk.  A text whose paragraphs
are all empty, including the empty text, produces exactly one chunk
equal to the whole text. -/
theorem chunkText_spec (text : List Char) (maxChunkSize : ℕ) :
    (∀ c ∈ chunkText text maxChunkSize,
      c ∈ splitParas text ∨ c.length ≤ maxChunkSize + 2 ∨
        chunkText text maxChunkSize = [text]) ∧
    (∀ p ∈ splitParas text, maxChunkSize < p.length →
      p ∈ chunkText text maxChunkSize) ∧
    ((∀ p ∈ splitParas text, p = []) → chunkText text maxChunkSize = [text]) := by
  refine ⟨?_, ?_, ?_⟩
  · intro c hc
    unfold chunkText at hc ⊢
    dsimp only at hc ⊢
    split_ifs at hc ⊢ with hlen
    · have := fold_chunk_bound maxChunkSize (splitParas text) (splitParas text)
        (fun p hp => hp) [] [] (by intro c hc2; cases hc2) (Or.inl rfl) c hc
      rcases this with h | h
      · exact Or.inl h
      · exact Or.inr (Or.inl h)
    · exact Or.inr (Or.inr rfl)
  · intro p hp hlen
    have hmem := oversize_whole maxChunkSize (splitParas text) [] [] p hp hlen
    unfold chunkText
    dsimp only
    rw [if_pos (List.length_pos.2 (List.ne_nil_of_mem hmem))]
    exact hmem
  · intro hall
    unfold chunkText
    dsimp only
    rw [fold_allempty maxChunkSize (splitParas text) hall]
    simp [flushChunks]

/-- Counterexample for C4 as stated: with maximum chunk size 10, the text
made of two five-character paragraphs separated by a blank line is
emitted as one single chunk equal to the whole text; that chunk consists
of two paragraphs but has length 12, which exceeds the maximum, because
the greedy size check ignores the two-character separator. -/
theorem chunkText_oversize_counterexample :
    chunkText "aaaaa\n\nbbbbb".data 10 = ["aaaaa\n\nbbbbb".data] ∧
    splitParas "aaaaa\n\nbbbbb".data = ["aaaaa".data, "bbbbb".data] ∧
    10 < "aaaaa\n\nbbbbb".data.length := by
  refine ⟨by decide, by decide, by decide⟩

/-- Witness for C4 at a text whose paragraphs are all empty: the blank
text of two newlines yields two empty paragraphs and one chunk equal to
the whole text. -/
theorem chunkText_spec_witness :
    splitParas "\n\n".data = [[], []] ∧
    chunkText "\n\n".data 5 = ["\n\n".data] :=
  ⟨by decide, (chunkText_spec "\n\n".data 5).2.2 (by decide)⟩

/-- C9: corrected ingestion output contract.  Ingestion generates one
fresh id per chunk, in chunk order, but the call returns the ids joined
into one comma-separated string rather than the id list itself: the
returned value is the join of the generated id list, and that list is
exactly the id supply applied to the chunk positions in order. -/
theorem ingest_ids_spec (st : List (MemoryEntry × List ℝ)) (content : String)
    (origFormat src : String) (tags : List String) (chunkSize : ℕ)
    (genEmb : Bool) (embedF : List Char → List ℝ) (idSupply : ℕ → String)
    (now : ℕ) :
    (ingest st content origFormat src tags chunkSize genEmb embedF
        idSupply now).2 =
      String.intercalate "," (ingestIds content chunkSize idSupply) ∧
    ingestIds content chunkSize idSupply =
      (List.range (chunkText content.data chunkSize).length).map idSupply := by
  constructor
  · unfold ingest
    dsimp only
    rw [foldl_pair_snd _ (fun ic : ℕ × List Char => idSupply ic.1)
      (fun acc ic => rfl)]
    rw [List.nil_append]
    unfold ingestIds
    rw [show (fun ic : ℕ × List Char => idSupply ic.1) =
      idSupply ∘ Prod.fst from rfl]
    rw [← List.map_map, List.enum_map_fst]
  · rfl

/-- Counterexample for C9 as stated: a two-chunk ingestion whose id
supply generates the ids A and B returns the single string of the two
ids joined by a comma; the returned value is not the id list and is not
one of the ids. -/
theorem ingest_join_counterexample :
    (ingest [] "aa\n\nbb" "txt" "doc.txt" [] 2 false (fun _ => [])
        (fun i => if i = 0 then "A" else "B") 0).2 = "A,B" ∧
    ingestIds "aa\n\nbb" 2 (fun i => if i = 0 then "A" else "B") = ["A", "B"] ∧
    "A,B" ≠ "A" ∧ "A,B" ≠ "B" := by
  refine ⟨by decide, by decide, by decide, by decide⟩

/- Lemmas about context similarity and the success rate. -/

theorem inter_card_eq (l1 l2 : List (List Char)) :
    (l1.dedup.filter (fun x => l2.dedup.contains x)).length =
      (l1.toFinset ∩ l2.toFinset).card := by
  have hnodup : (l1.dedup.filter (fun x => l2.dedup.contains x)).Nodup :=
    (List.nodup_dedup l1).filter _
  rw [← List.toFinset_card_of_nodup hnodup]
  congr 1
  ext x
  simp [List.mem_dedup]

theorem union_card_eq (l1 l2 : List (List Char)) :
    (l1.dedup ++ l2.dedup).dedup.length = (l1.toFinset ∪ l2.toFinset).card := by
  rw [← List.card_toFinset]
  rw [List.toFinset_append, toFinset_dedup, toFinset_dedup]

theorem isSimilarContext_iff (context1 context2 : SkillContext) :
    isSimilarContext context1 context2 = true ↔
      (3 : ℚ) / 10 < specJaccard context1.query context2.query := by
  unfold isSimilarContext specJaccard wordSet
  dsimp only
  rw [decide_eq_true_iff]
  rw [inter_card_eq, union_card_eq]

theorem successRate_filter_eq (history : List SkillExecutionHistory)
    (skillId : String) (context : SkillContext) :
    history.filter
        (fun h => h.skillId == skillId && isSimilarContext h.context context) =
      specMatching history skillId context := by
  unfold specMatching
  apply List.filter_congr
  intro h _
  rw [Bool.eq_iff_iff]
  simp only [Bool.and_eq_true, beq_iff_eq, decide_eq_true_iff,
    isSimilarContext_iff]

/-- C5: the history records that feed the success rate are exactly those
whose skill id equals the given id and whose stored query has word-level
case-insensitive Jaccard similarity strictly greater than 0.3 with the
current query; when no record matches, the rate is exactly one half, and
otherwise it is the fraction of successful records among the matching
ones. -/
theorem successRate_spec (history : List SkillExecutionHistory)
    (skillId : String) (context : SkillContext) :
    (specMatching history skillId context = [] →
      calculateSuccessRate history skillId context = 1 / 2) ∧
    (specMatching history skillId context ≠ [] →
      calculateSuccessRate history skillId context =
        (((specMatching history skillId context).filter
            (fun h => h.result.success)).length : ℚ) /
          ((specMatching history skillId context).length : ℚ)) := by
  have heq := successRate_filter_eq history skillId context
  constructor
  · intro h0
    unfold calculateSuccessRate
    dsimp only
    rw [heq, h0]
    simp
  · intro hne
    unfold calculateSuccessRate
    dsimp only
    rw [heq]
    rw [if_neg (fun hl => hne (List.length_eq_zero.1 hl))]

/-- Witness for C5: with empty history no record matches and the success
rate is exactly one half. -/
theorem successRate_spec_witness :
    specMatching [] "s" ⟨"q", []⟩ = [] ∧
    calculateSuccessRate [] "s" ⟨"q", []⟩ = 1 / 2 :=
  ⟨rfl, (successRate_spec [] "s" ⟨"q", []⟩).1 rfl⟩

/- Lemmas about relevance and recommendation confidence. -/

theorem foldl_add_shift2 {α : Type} (f g : α → ℚ) :
    ∀ (l : List α) (a : ℚ),
      l.foldl (fun r x => r + f x + g x) a = a + (l.map (fun x => f x + g x)).sum := by
  intro l
  induction l with
  | nil => intro a; simp
  | cons x t ih =>
    intro a
    rw [List.foldl_cons, ih, List.map_cons, List.sum_cons]
    ring

theorem calculateRelevance_eq_spec (skill : Skill) (context : SkillContext) :
    calculateRelevance skill context = specRelevance skill context := by
  unfold calculateRelevance specRelevance
  dsimp only
  rw [foldl_add_shift2
    (fun keyword => if containsSub (lowerChars skill.name) keyword then (3 : ℚ) / 10 else 0)
    (fun keyword => if containsSub (lowerChars skill.description) keyword then (2 : ℚ) / 10 else 0)]
  rw [zero_add, min_comm]

theorem successRate_bounds (history : List SkillExecutionHistory)
    (skillId : String) (context : SkillContext) :
    0 ≤ calculateSuccessRate history skillId context ∧
      calculateSuccessRate history skillId context ≤ 1 := by
  unfold calculateSuccessRate
  dsimp only
  split_ifs with h
  · norm_num
  · have hpos : (0 : ℚ) < ((history.filter (fun h =>
        h.skillId == skillId && isSimilarContext h.context context)).length : ℚ) := by
      exact_mod_cast Nat.pos_of_ne_zero h
    constructor
    · positivity
    · rw [div_le_one hpos]
      exact_mod_cast List.length_filter_le _ _

theorem relevance_bounds (skill : Skill) (context : SkillContext) :
    0 ≤ calculateRelevance skill context ∧ calculateRelevance skill context ≤ 1 := by
  rw [calculateRelevance_eq_spec]
  unfold specRelevance
  constructor
  · refine le_min (by norm_num) (List.sum_nonneg ?_)
    intro x hx
    obtain ⟨k, _, rfl⟩ := List.mem_map.1 hx
    split_ifs <;> norm_num
  · exact min_le_left _ _

/-- C6: the relevance score is the sum over the query words of length
greater than three of 0.3 per word contained in the lowercased skill
name and 0.2 per word contained in the lowercased description, capped at
1; every recommendation produced for a catalog whose keys are the skill
ids carries as confidence the arithmetic mean of the historical success
rate of its skill and that relevance score, and that confidence always
lies between 0 and 1. -/
theorem recommend_confidence_spec (skills : List (String × Skill))
    (history : List SkillExecutionHistory) (context : SkillContext)
    (limit : ℕ) :
    (∀ skill : Skill, calculateRelevance skill context = specRelevance skill context) ∧
    ((∀ p ∈ skills, p.1 = p.2.id) →
      ∀ rec ∈ recommendSkills skills history context limit,
        rec.confidence = (calculateSuccessRate history rec.skill.id context +
          calculateRelevance rec.skill context) / 2 ∧
        0 ≤ rec.confidence ∧ rec.confidence ≤ 1) := by
  refine ⟨fun skill => calculateRelevance_eq_spec skill context, ?_⟩
  intro hcat rec hrec
  unfold recommendSkills at hrec
  dsimp only at hrec
  have h2 := List.take_subset limit _ hrec
  have h3 := (List.perm_insertionSort
    (fun a b : SkillRecommendation => b.confidence ≤ a.confidence) _).mem_iff.1 h2
  obtain ⟨p, hp, hfp⟩ := List.mem_map.1 h3
  subst hfp
  have h4 := successRate_bounds history p.1 context
  have h5 := relevance_bounds p.2 context
  refine ⟨?_, ?_, ?_⟩
  · dsimp only
    rw [hcat p hp]
  · dsimp only
    linarith [h4.1, h5.1]
  · dsimp only
    linarith [h4.2, h5.2]

/-- Witness for C6: a one-skill catalog keyed by the skill id; the
produced recommendation has a confidence that is the mean of the two
scores and lies between 0 and 1. -/
theorem recommend_confidence_spec_witness :
    "s1" = c6skill.id ∧
    c6rec.confidence = (calculateSuccessRate [] c6rec.skill.id c6ctx +
      calculateRelevance c6rec.skill c6ctx) / 2 ∧
    0 ≤ c6rec.confidence ∧ c6rec.confidence ≤ 1 := by
  have hcat : ∀ p ∈ [("s1", c6skill)], p.1 = p.2.id := by
    intro p hp
    rw [List.mem_singleton.1 hp]
    rfl
  have heval : recommendSkills [("s1", c6skill)] [] c6ctx 3 = [c6rec] := rfl
  have hmem : c6rec ∈ recommendSkills [("s1", c6skill)] [] c6ctx 3 := by
    rw [heval]
    exact List.mem_singleton_self _
  have h := (recommend_confidence_spec [("s1", c6skill)] [] c6ctx 3).2 hcat c6rec hmem
  exact ⟨rfl, h.1, h.2.1, h.2.2⟩

/-- C7: executing a missing skill id fails with the skill-not-found
error and leaves the history unchanged; executing a registered skill
never propagates a throw from the skill body, converting it into a
failed result carrying the thrown message, and in every executed case
exactly one history record holding the skill id, the context, the result
and the timestamp is appended. -/
theorem executeSkill_spec (skills : List (String × Skill))
    (history : List SkillExecutionHistory) (skillId : String)
    (context : SkillContext) (now : ℕ) :
    (findSkill skills skillId = none →
      executeSkill skills history skillId context now =
        (Except.error ("Skill not found: " ++ skillId), history)) ∧
    (∀ skill, findSkill skills skillId = some skill →
      ∃ result, executeSkill skills history skillId context now =
          (Except.ok result, history ++
            [{ skillId := skillId, context := context, result := result,
               timestamp := now }]) ∧
        (∀ msg, skill.execute context = Except.error msg →
          result = { success := false, output := none, error := some msg }) ∧
        (∀ r, skill.execute context = Except.ok r → result = r)) := by
  constructor
  · intro h
    simp only [executeSkill, h]
  · intro skill h
    simp only [executeSkill, h]
    refine ⟨_, rfl, ?_, ?_⟩
    · intro msg hmsg
      simp only [hmsg]
    · intro r hr
      simp only [hr]

/-- Witness for C7: a catalog holding one skill that always throws; the
execution converts the throw into a failed result with the thrown
message and appends exactly one matching history record. -/
theorem executeSkill_spec_witness :
    findSkill [("boom", c7skill)] "boom" = some c7skill ∧
    executeSkill [("boom", c7skill)] [] "boom" c7ctx 0 =
      (Except.ok { success := false, output := none, error := some "kaboom" },
       [{ skillId := "boom", context := c7ctx,
          result := { success := false, output := none, error := some "kaboom" },
          timestamp := 0 }]) := by
  have hfind : findSkill [("boom", c7skill)] "boom" = some c7skill := rfl
  obtain ⟨result, heq, herr, hok⟩ :=
    (executeSkill_spec [("boom", c7skill)] [] "boom" c7ctx 0).2 c7skill hfind
  have hres : result = { success := false, output := none, error := some "kaboom" } :=
    herr "kaboom" rfl
  subst hres
  refine ⟨hfind, ?_⟩
  rw [heq]
  simp
